import Mathlib

/-
Verification of the lingo.dev SDK localization engine
(packages/sdk/src/index.ts) through a shallow embedding in Lean.

The embedding translates the TypeScript source into executable Lean
definitions: JavaScript objects become association lists in insertion
order, JSON-like dynamic values become the inductive `JsonValue`,
`Record<string,string>` payloads become `List (String × String)`
(respectively `List (String × JsonValue)` where the source passes
non-string values), thrown errors become explicit outcome types, and the
DOM of `localizeHtml` becomes the inductive `DomNode`.
-/

/- ===================== JavaScript string primitives ===================== -/

/-- Whitespace test for the character classes used by the source
(the trim calls and the split on a whitespace-run regular expression). -/
def jsIsWhitespace (c : Char) : Bool :=
  c = ' ' || c = '\t' || c = '\n' || c = '\r' || c = '\x0b' || c = '\x0c'

/-- Model of JavaScript String.prototype.trim on character lists:
drop whitespace from both ends. -/
def jsTrimList (l : List Char) : List Char :=
  ((l.dropWhile jsIsWhitespace).reverse.dropWhile jsIsWhitespace).reverse

/-- Model of JavaScript String.prototype.trim. -/
def jsTrim (s : String) : String := ⟨jsTrimList s.data⟩

/-- Number of maximal runs of non-whitespace characters in a character
list.  The Boolean argument records whether the previous character was
part of a word run.  This is the value of the JavaScript expression
`payload.trim().split(<whitespace-run regex>).filter(Boolean).length`
from countWordsInRecord: trimming plus splitting on whitespace runs plus
dropping empty tokens counts exactly the maximal non-whitespace runs. -/
def countWordRuns : Bool → List Char → Nat
  | _, [] => 0
  | inWord, c :: rest =>
    if jsIsWhitespace c then countWordRuns false rest
    else (if inWord then 0 else 1) + countWordRuns true rest

/-- Word count of a single string, as computed by the source for string
leaves of a payload. -/
def jsWordCount (s : String) : Nat := countWordRuns false s.data

/-- Model of JavaScript String.prototype.split with a single-character
separator, on character lists.  The result is always non-empty; splitting
the empty list gives one empty piece, as in JavaScript. -/
def jsSplitList (sep : Char) : List Char → List (List Char)
  | [] => [[]]
  | c :: rest =>
    match jsSplitList sep rest with
    | [] => [[]]
    | piece :: pieces =>
      if c = sep then [] :: piece :: pieces else (c :: piece) :: pieces

/-- Model of JavaScript String.prototype.split with a single-character
separator. -/
def jsSplit (sep : Char) (s : String) : List String :=
  (jsSplitList sep s.data).map fun l => ⟨l⟩

/- ===================== Decimal rendering and parsing ===================== -/

/-- Decimal digit character for a value below ten. -/
def natDigitChar (n : Nat) : Char := Char.ofNat (48 + n)

/-- Numeric value of a decimal digit character. -/
def digitVal (c : Char) : Nat := c.toNat - 48

/-- Fuel-driven decimal rendering (most significant digit first).  The
fuel argument only forces termination; `natToString` always supplies
enough fuel. -/
def natToDigitsAux : Nat → Nat → List Char
  | 0, _ => []
  | fuel + 1, n =>
    if n < 10 then [natDigitChar n]
    else natToDigitsAux fuel (n / 10) ++ [natDigitChar (n % 10)]

/-- Decimal rendering of a natural number, the JavaScript ToString
conversion applied to the non-negative integers appearing in the source
(template literals and Array.prototype.join over child indices). -/
def natToString (n : Nat) : String := ⟨natToDigitsAux (n + 1) n⟩

/-- Numeric value of a list of decimal digit characters (most significant
first). -/
def digitsToNat (ds : List Char) : Nat :=
  ds.foldl (fun acc c => acc * 10 + digitVal c) 0

/-- Model of JavaScript parseInt restricted to the shapes relevant here:
the longest leading run of decimal digits is parsed, and `none` stands
for NaN (no leading digit).  Sign handling and whitespace skipping of
full parseInt are not exercised by the paths and keys analysed. -/
def jsParseIntNat (s : String) : Option Nat :=
  let ds := s.data.takeWhile Char.isDigit
  if ds.isEmpty then none else some (digitsToNat ds)

/- ===================== Fuel and round-trip lemmas ===================== -/

theorem natToDigitsAux_fuel (fuel fuel' n : Nat) (h : n < fuel) (h' : n < fuel') :
    natToDigitsAux fuel n = natToDigitsAux fuel' n := by
  induction fuel generalizing fuel' n with
  | zero => omega
  | succ f ih =>
    cases fuel' with
    | zero => omega
    | succ f' =>
      simp only [natToDigitsAux]
      by_cases h10 : n < 10
      · simp [h10]
      · have hdiv : n / 10 < f := by omega
        have hdiv' : n / 10 < f' := by omega
        simp [h10, ih f' (n / 10) hdiv hdiv']

theorem natToDigitsAux_ne_nil (fuel n : Nat) (h : n < fuel) :
    natToDigitsAux fuel n ≠ [] := by
  cases fuel with
  | zero => omega
  | succ f =>
    simp only [natToDigitsAux]
    by_cases h10 : n < 10 <;> simp [h10]

theorem digitVal_natDigitChar (n : Nat) (h : n < 10) :
    digitVal (natDigitChar n) = n := by
  interval_cases n <;> decide

theorem isDigit_natDigitChar (n : Nat) (h : n < 10) :
    (natDigitChar n).isDigit = true := by
  interval_cases n <;> decide

theorem natToDigitsAux_all_digits (fuel n : Nat) (h : n < fuel) :
    ∀ c ∈ natToDigitsAux fuel n, c.isDigit = true := by
  induction fuel generalizing n with
  | zero => omega
  | succ f ih =>
    simp only [natToDigitsAux]
    by_cases h10 : n < 10
    · simp [h10, isDigit_natDigitChar n h10]
    · have hdiv : n / 10 < f := by omega
      simp only [h10, if_false, List.mem_append, List.mem_singleton]
      intro c hc
      rcases hc with hc | hc
      · exact ih (n / 10) hdiv c hc
      · subst hc; exact isDigit_natDigitChar (n % 10) (Nat.mod_lt _ (by omega))

theorem digitsToNat_append_last (ds : List Char) (c : Char) :
    digitsToNat (ds ++ [c]) = digitsToNat ds * 10 + digitVal c := by
  simp [digitsToNat, List.foldl_append]

theorem digitsToNat_natToDigitsAux (fuel n : Nat) (h : n < fuel) :
    digitsToNat (natToDigitsAux fuel n) = n := by
  induction fuel generalizing n with
  | zero => omega
  | succ f ih =>
    simp only [natToDigitsAux]
    by_cases h10 : n < 10
    · simp [h10, digitsToNat, digitVal_natDigitChar n h10]
    · have hdiv : n / 10 < f := by omega
      simp only [h10, if_false, digitsToNat_append_last, ih (n / 10) hdiv,
        digitVal_natDigitChar (n % 10) (Nat.mod_lt _ (by omega))]
      omega

theorem jsParseIntNat_natToString (n : Nat) : jsParseIntNat (natToString n) = some n := by
  have hall : ∀ c ∈ natToDigitsAux (n + 1) n, c.isDigit = true :=
    natToDigitsAux_all_digits (n + 1) n (Nat.lt_succ_self n)
  have htake : (natToDigitsAux (n + 1) n).takeWhile Char.isDigit = natToDigitsAux (n + 1) n :=
    List.takeWhile_eq_self_iff.mpr hall
  have hne : natToDigitsAux (n + 1) n ≠ [] := natToDigitsAux_ne_nil _ _ (Nat.lt_succ_self n)
  simp only [jsParseIntNat, natToString, htake]
  simp [List.isEmpty_iff, hne, digitsToNat_natToDigitsAux (n + 1) n (Nat.lt_succ_self n)]


/- ===================== Dynamic values and word counting ===================== -/

/-- Dynamic JSON-like value, the shape of the `any`-typed payload values
the SDK handles: strings, arrays, plain objects (association lists in
insertion order), and every other primitive (numbers, booleans, null),
which countWordsInRecord maps to zero. -/
inductive JsonValue where
  | str (s : String)
  | arr (items : List JsonValue)
  | obj (fields : List (String × JsonValue))
  | prim

/- Recursive word count of countWordsInRecord: arrays and objects sum
over their members, strings count whitespace-separated words, all other
values contribute zero.  The branch order follows the source (array
check, then object, then string). -/
mutual
/-- Word count of a dynamic value (countWordsInRecord of the source). -/
def countWordsInRecord : JsonValue → Nat
  | .arr items => countWordsInArray items
  | .obj fields => countWordsInFields fields
  | .str s => jsWordCount s
  | .prim => 0
def countWordsInArray : List JsonValue → Nat
  | [] => 0
  | v :: rest => countWordsInRecord v + countWordsInArray rest
def countWordsInFields : List (String × JsonValue) → Nat
  | [] => 0
  | f :: rest => countWordsInRecord f.2 + countWordsInFields rest
end

/- ===================== Chunker ===================== -/

/-- Engine configuration fields used by the chunker. -/
structure EngineConfig where
  batchSize : Nat
  idealBatchItemSize : Nat

/-- Loop of extractPayloadChunks.  The payload is the list of
Object.entries of the input record in insertion order; `cur` and `cnt`
are the current chunk and its item count.  A chunk is closed when its
recursive word count exceeds idealBatchItemSize, when its item count
reaches batchSize, or at the last entry (`rest.isEmpty` mirrors the
index comparison `i === payloadEntries.length - 1`). -/
def extractPayloadChunksGo (cfg : EngineConfig) (cur : List (String × JsonValue)) (cnt : Nat) :
    List (String × JsonValue) → List (List (String × JsonValue))
  | [] => []
  | e :: rest =>
    let cur' := cur ++ [e]
    let cnt' := cnt + 1
    if countWordsInRecord (.obj cur') > cfg.idealBatchItemSize ∨
        cnt' ≥ cfg.batchSize ∨ rest.isEmpty then
      cur' :: extractPayloadChunksGo cfg [] 0 rest
    else
      extractPayloadChunksGo cfg cur' cnt' rest

/-- extractPayloadChunks of the source: chunk the payload entries in
insertion order, starting from an empty current chunk. -/
def extractPayloadChunks (cfg : EngineConfig) (payload : List (String × JsonValue)) :
    List (List (String × JsonValue)) :=
  extractPayloadChunksGo cfg [] 0 payload

theorem extractPayloadChunksGo_flatten (cfg : EngineConfig) :
    ∀ (rest cur : List (String × JsonValue)) (cnt : Nat),
      (extractPayloadChunksGo cfg cur cnt rest).flatten =
        if rest.isEmpty then [] else cur ++ rest := by
  intro rest
  induction rest with
  | nil => intro cur cnt; simp [extractPayloadChunksGo]
  | cons e rest ih =>
    intro cur cnt
    simp only [extractPayloadChunksGo]
    by_cases hclose : countWordsInRecord (.obj (cur ++ [e])) > cfg.idealBatchItemSize ∨
        cnt + 1 ≥ cfg.batchSize ∨ rest.isEmpty = true
    · rw [if_pos hclose, List.flatten_cons, ih [] 0]
      cases hr : rest.isEmpty
      · simp [hr]
      · have : rest = [] := List.isEmpty_iff.mp hr
        subst this; simp
    · have hne : rest.isEmpty = false := by
        cases hr : rest.isEmpty
        · rfl
        · exact absurd (Or.inr (Or.inr hr)) hclose
      rw [if_neg hclose, ih (cur ++ [e]) (cnt + 1), hne]
      simp

theorem flatten_nodup_count_chunks (k : String) :
    ∀ L : List (List (String × JsonValue)),
      (L.flatten.map Prod.fst).Nodup →
      (L.countP fun c => decide (k ∈ c.map Prod.fst)) =
        if k ∈ L.flatten.map Prod.fst then 1 else 0 := by
  intro L
  induction L with
  | nil => intro _; simp
  | cons c t ih =>
    intro hnd
    rw [List.flatten_cons, List.map_append] at hnd
    have hsplit := List.nodup_append.mp hnd
    have hc : (c.map Prod.fst).Nodup := hsplit.1
    have ht : (t.flatten.map Prod.fst).Nodup := hsplit.2.1
    have hdisj := hsplit.2.2
    rw [List.countP_cons, ih ht, List.flatten_cons, List.map_append]
    simp only [decide_eq_true_eq, List.mem_append]
    by_cases hk : k ∈ c.map Prod.fst
    · have hkt : k ∉ t.flatten.map Prod.fst := fun hmem => hdisj hk hmem
      rw [if_neg hkt, if_pos hk, if_pos (Or.inl hk)]
    · rw [if_neg hk]
      by_cases hkt : k ∈ t.flatten.map Prod.fst
      · rw [if_pos hkt, if_pos (Or.inr hkt)]
      · rw [if_neg hkt, if_neg (fun hor => hor.elim hk hkt)]

/-- C1: flatten-concatenating the chunks produced by extractPayloadChunks,
in order, yields exactly the original payload entries in their original
order; and when the payload keys are distinct (as they are for the
entries of a JavaScript object), every key appears in exactly one chunk
and no other key appears in any chunk. -/
theorem extractPayloadChunks_bijection (cfg : EngineConfig)
    (payload : List (String × JsonValue))
    (hnd : (payload.map Prod.fst).Nodup) :
    (extractPayloadChunks cfg payload).flatten = payload ∧
    ∀ k : String,
      ((extractPayloadChunks cfg payload).countP fun c => decide (k ∈ c.map Prod.fst)) =
        if k ∈ payload.map Prod.fst then 1 else 0 := by
  have hflat : (extractPayloadChunks cfg payload).flatten = payload := by
    rw [extractPayloadChunks, extractPayloadChunksGo_flatten]
    cases hp : payload.isEmpty
    · simp [hp]
    · have : payload = [] := List.isEmpty_iff.mp hp
      subst this; simp
  refine ⟨hflat, fun k => ?_⟩
  have h := flatten_nodup_count_chunks k (extractPayloadChunks cfg payload)
    (by rw [hflat]; exact hnd)
  rw [hflat] at h
  exact h

/-- Witness for C1 at a concrete configuration and payload. -/
theorem extractPayloadChunks_bijection_witness :
    (extractPayloadChunks ⟨25, 250⟩
        [("a", .str "hello world"), ("b", .str "foo")]).flatten =
      [("a", .str "hello world"), ("b", .str "foo")] ∧
    ((extractPayloadChunks ⟨25, 250⟩
        [("a", .str "hello world"), ("b", .str "foo")]).countP
      fun c => decide ("a" ∈ c.map Prod.fst)) = 1 := by
  have h := extractPayloadChunks_bijection ⟨25, 250⟩
    [("a", .str "hello world"), ("b", .str "foo")] (by decide)
  refine ⟨h.1, ?_⟩
  have h2 := h.2 "a"
  simpa using h2

/-- C8 counterexample: the recursive word count of the payload
obj a ↦ "hello world", b ↦ [ "foo", "bar baz" ] is not four; the words
are hello, world, foo, bar and baz, so the algorithm described by the
claim itself yields five. -/
theorem countWordsInRecord_example_not_four :
    countWordsInRecord
      (.obj [("a", .str "hello world"),
             ("b", .arr [.str "foo", .str "bar baz"])]) ≠ 4 := by
  decide

/-- C8 amended: the recursive word count of the payload
obj a ↦ "hello world", b ↦ [ "foo", "bar baz" ] is five, where word
counting splits each string on whitespace runs, drops empty tokens, sums
recursively over arrays and nested objects, and non-string non-container
values contribute zero. -/
theorem countWordsInRecord_example :
    countWordsInRecord
      (.obj [("a", .str "hello world"),
             ("b", .arr [.str "foo", .str "bar baz"])]) = 5 := by
  decide

/- ===================== Provider response handling ===================== -/

/-- Substring test on character lists: does the second list contain the
first as a contiguous run? -/
def listStartsWith : List Char → List Char → Bool
  | [], _ => true
  | _ :: _, [] => false
  | a :: as, b :: bs => a = b && listStartsWith as bs

def listIncludes (needle : List Char) : List Char → Bool
  | [] => needle.isEmpty
  | c :: rest => listStartsWith needle (c :: rest) || listIncludes needle rest

/-- Model of JavaScript String.prototype.includes. -/
def strIncludes (hay needle : String) : Bool := listIncludes needle.data hay.data

/-- Shape of a provider response as observed by localizeChunk: the fetch
status information, the raw body text, and the two optional fields of
the parsed JSON body.  `none` for `data` and `error` stands for an
absent (or null) field, which is falsy in JavaScript. -/
structure ProviderResponse where
  ok : Bool
  status : Nat
  statusText : String
  bodyText : String
  data : Option (List (String × String))
  error : Option String
deriving DecidableEq

/-- Outcome of a localizeChunk call: either a translated mapping or a
thrown error message. -/
inductive ChunkOutcome where
  | success (d : List (String × String))
  | failure (msg : String)
deriving DecidableEq

/-- JavaScript truthiness of an optional string field: an absent field
and the empty string are falsy. -/
def strFieldTruthy : Option String → Bool
  | none => false
  | some s => s ≠ ""

/-- Response handling of the try block of localizeChunk: a non-ok
response with status 400 throws an invalid-request error, any other
non-ok response throws the raw body text; an ok response with no
(truthy) data field but a truthy error field throws that error;
otherwise the data field (or an empty mapping) is returned. -/
def processChunkResponse (r : ProviderResponse) : ChunkOutcome :=
  if !r.ok then
    if r.status = 400 then .failure ("Invalid request: " ++ r.statusText)
    else .failure r.bodyText
  else if r.data.isNone && strFieldTruthy r.error then
    .failure (r.error.getD "")
  else
    .success (r.data.getD [])

/-- Full localizeChunk response path including the catch block: any error
whose message contains the substring aborted is replaced by the canonical
cancellation message, all other errors are rethrown unchanged. -/
def localizeChunkOutcome (r : ProviderResponse) : ChunkOutcome :=
  match processChunkResponse r with
  | .success d => .success d
  | .failure msg =>
    if strIncludes msg "aborted" then .failure "Localization was aborted"
    else .failure msg

/-- C4 counterexample: a success response whose error field is present
but holds the empty string is falsy in JavaScript, so localizeChunk
returns the empty mapping instead of raising the (empty) error. -/
theorem processChunkResponse_empty_error_not_failure :
    processChunkResponse ⟨true, 200, "OK", "", none, some ""⟩ = .success [] ∧
    processChunkResponse ⟨true, 200, "OK", "", none, some ""⟩ ≠ .failure "" := by
  constructor <;> decide

/-- C4 amended: for every provider response processed by the try block of
localizeChunk, a non-success status 400 raises the invalid-request
failure; any other non-success status raises a failure carrying the raw
body text; a success response with no data field but a non-empty error
field raises that error string; any other success response returns its
data field, or the empty mapping when data is absent. -/
theorem processChunkResponse_cases (r : ProviderResponse) :
    (r.ok = false → r.status = 400 →
      processChunkResponse r = .failure ("Invalid request: " ++ r.statusText)) ∧
    (r.ok = false → r.status ≠ 400 →
      processChunkResponse r = .failure r.bodyText) ∧
    (∀ s : String, r.ok = true → r.data = none → r.error = some s → s ≠ "" →
      processChunkResponse r = .failure s) ∧
    (∀ d, r.ok = true → r.data = some d →
      processChunkResponse r = .success d) ∧
    (r.ok = true → r.data = none → (r.error = none ∨ r.error = some "") →
      processChunkResponse r = .success []) := by
  refine ⟨?_, ?_, ?_, ?_, ?_⟩
  · intro hok h400
    simp [processChunkResponse, hok, h400]
  · intro hok h400
    simp [processChunkResponse, hok, h400]
  · intro s hok hdata herr hne
    simp [processChunkResponse, hok, hdata, herr, strFieldTruthy, hne]
  · intro d hok hdata
    simp [processChunkResponse, hok, hdata, strFieldTruthy]
  · intro hok hdata herr
    rcases herr with herr | herr <;>
      simp [processChunkResponse, hok, hdata, herr, strFieldTruthy]

/-- Witness for C4 at concrete responses: a 400 response, a 500 response
with a body, the rate-limited example from the specification, a response
with data, and a success response with absent data and error. -/
theorem processChunkResponse_cases_witness :
    processChunkResponse ⟨false, 400, "Bad Request", "", none, none⟩ =
      .failure "Invalid request: Bad Request" ∧
    processChunkResponse ⟨false, 500, "Server Error", "boom", none, none⟩ =
      .failure "boom" ∧
    processChunkResponse ⟨true, 200, "OK", "", none, some "rate limited"⟩ =
      .failure "rate limited" ∧
    processChunkResponse ⟨true, 200, "OK", "", some [("text", "hola")], none⟩ =
      .success [("text", "hola")] ∧
    processChunkResponse ⟨true, 200, "OK", "", none, none⟩ = .success [] := by
  refine ⟨?_, ?_, ?_, ?_, ?_⟩
  · exact (processChunkResponse_cases _).1 rfl rfl
  · exact (processChunkResponse_cases _).2.1 rfl (by decide)
  · exact (processChunkResponse_cases _).2.2.1 "rate limited" rfl rfl rfl (by decide)
  · exact (processChunkResponse_cases _).2.2.2.1 [("text", "hola")] rfl rfl
  · exact (processChunkResponse_cases _).2.2.2.2 rfl rfl (Or.inl rfl)

/-- C9: any failure thrown inside the try block of localizeChunk whose
message contains the substring aborted, including a provider failure
built from a non-success response body, is replaced by the canonical
cancellation message by the catch block, independently of any
cancellation signal (the model contains no signal at all). -/
theorem localizeChunkOutcome_aborted_normalization (r : ProviderResponse) (msg : String)
    (hfail : processChunkResponse r = .failure msg)
    (hsub : strIncludes msg "aborted" = true) :
    localizeChunkOutcome r = .failure "Localization was aborted" := by
  simp [localizeChunkOutcome, hfail, hsub]

/-- Witness for C9: a 503 response whose body happens to contain the word
aborted is surfaced as the canonical cancellation failure. -/
theorem localizeChunkOutcome_aborted_normalization_witness :
    localizeChunkOutcome ⟨false, 503, "Service Unavailable",
        "transfer aborted by peer", none, none⟩ =
      .failure "Localization was aborted" :=
  localizeChunkOutcome_aborted_normalization
    ⟨false, 503, "Service Unavailable", "transfer aborted by peer", none, none⟩
    "transfer aborted by peer" (by decide) (by decide)

/- ===================== Cancellation in the chunk loop ===================== -/

/-- Chunk loop of localizeRaw viewed through its cancellation checks.
The argument `aborted n` tells whether the cancellation signal is in the
aborted state at the point where n provider calls have completed; the
first component of the result is the number of provider calls performed
and the second is true when the loop raised the cancellation failure.
Each iteration checks the signal before dispatching its chunk. -/
def localizeRawChunkLoop (aborted : Nat → Bool) : Nat → Nat → Nat × Bool
  | calls, 0 => (calls, false)
  | calls, n + 1 =>
    if aborted calls then (calls, true)
    else localizeRawChunkLoop aborted (calls + 1) n

/-- Cancellation behaviour of localizeRaw on a payload of `numChunks`
chunks: the signal is checked once at the top of the call and then
before each chunk dispatch. -/
def localizeRawCancellation (aborted : Nat → Bool) (numChunks : Nat) : Nat × Bool :=
  if aborted 0 then (0, true) else localizeRawChunkLoop aborted 0 numChunks

/-- C5: if the signal is already aborted at entry, the cancellation
failure is raised with zero provider calls, whatever the number of
chunks; and on three chunks, a signal that is clear at entry but aborted
once one call has completed raises the cancellation failure after
exactly one provider call. -/
theorem localizeRawCancellation_checks (aborted : Nat → Bool) (numChunks : Nat) :
    (aborted 0 = true → localizeRawCancellation aborted numChunks = (0, true)) ∧
    (aborted 0 = false → aborted 1 = true →
      localizeRawCancellation aborted 3 = (1, true)) := by
  constructor
  · intro h0
    simp [localizeRawCancellation, h0]
  · intro h0 h1
    simp [localizeRawCancellation, localizeRawChunkLoop, h0, h1]

/-- Witness for C5: the two scenarios at concrete signals. -/
theorem localizeRawCancellation_checks_witness :
    localizeRawCancellation (fun _ => true) 3 = (0, true) ∧
    localizeRawCancellation (fun n => decide (1 ≤ n)) 3 = (1, true) := by
  constructor
  · exact (localizeRawCancellation_checks (fun _ => true) 3).1 rfl
  · exact (localizeRawCancellation_checks (fun n => decide (1 ≤ n)) 3).2 (by decide) (by decide)

/- ===================== Chat localization ===================== -/

/-- One chat message, with a speaker name and a text. -/
structure ChatMessage where
  name : String
  text : String
deriving DecidableEq

/-- JSON form of one chat message as it is serialized into the request
body. -/
def chatMessageJson (m : ChatMessage) : JsonValue :=
  .obj [("name", .str m.name), ("text", .str m.text)]

/-- Payload handed by localizeChat to the raw localization call: the
object literal with the single key chat holding the entire message
array, speaker names included. -/
def localizeChatPayload (chat : List ChatMessage) : List (String × JsonValue) :=
  [("chat", .arr (chat.map chatMessageJson))]

/-- Index extracted from a localized-result key by the recombination step
of localizeChat: the second underscore-separated piece of the key parsed
with parseInt.  A missing piece behaves like parseInt of undefined, that
is NaN, modelled as none. -/
def chatKeyIndex (key : String) : Option Nat :=
  match (jsSplit '_' key).get? 1 with
  | none => none
  | some s => jsParseIntNat s

/-- Recombination step of localizeChat: each localized entry is mapped to
a message whose name is looked up in the original chat array at the
parsed key index.  In the source, an out-of-range or NaN index makes
`chat[...]` undefined and reading `.name` throws a TypeError; the model
returns none for the whole call in that case. -/
def localizeChatRecombine (chat : List ChatMessage) :
    List (String × String) → Option (List ChatMessage)
  | [] => some []
  | kv :: rest =>
    match (chatKeyIndex kv.1).bind fun i => chat.get? i with
    | some m =>
      match localizeChatRecombine chat rest with
      | some out => some ({ name := m.name, text := kv.2 } :: out)
      | none => none
    | none => none

/-- Probe extracting the name of the first message of the chat payload;
used to distinguish payloads without a decidable equality on the nested
JsonValue type. -/
def chatPayloadFirstName : List (String × JsonValue) → String
  | [(_, .arr (.obj (("name", .str nm) :: _) :: _))] => nm
  | _ => ""

/-- C2 counterexample: two one-message transcripts with the same text but
different speaker names produce different provider-bound payloads, the
payload's only key is chat rather than chat_0, and the payload contains
the speaker name. -/
theorem localizeChatPayload_names_sent :
    localizeChatPayload [⟨"Alice", "hi"⟩] ≠ localizeChatPayload [⟨"Bob", "hi"⟩] ∧
    (localizeChatPayload [⟨"Alice", "hi"⟩]).map Prod.fst = ["chat"] ∧
    chatPayloadFirstName (localizeChatPayload [⟨"Alice", "hi"⟩]) = "Alice" := by
  refine ⟨?_, rfl, rfl⟩
  intro h
  have := congrArg chatPayloadFirstName h
  simp [localizeChatPayload, chatMessageJson, chatPayloadFirstName] at this

/-- C2 amended: the payload localizeChat sends to the raw localization
call is the single-entry record keyed chat holding the full message
array, speaker names included; it determines the entire transcript, so
two transcripts with identical texts but different names always produce
different provider-bound payloads. -/
theorem localizeChatPayload_determines_chat (c1 c2 : List ChatMessage)
    (h : localizeChatPayload c1 = localizeChatPayload c2) :
    c1 = c2 := by
  have harr : c1.map chatMessageJson = c2.map chatMessageJson := by
    simpa [localizeChatPayload] using h
  have hinj : Function.Injective chatMessageJson := by
    intro m1 m2 hm
    cases m1; cases m2
    simpa [chatMessageJson, ChatMessage.mk.injEq] using hm
  exact List.map_injective_iff.mpr hinj harr

/-- Witness for C2 amended at concrete transcripts. -/
theorem localizeChatPayload_determines_chat_witness :
    ([⟨"Alice", "hi"⟩] : List ChatMessage) = [⟨"Alice", "hi"⟩] :=
  localizeChatPayload_determines_chat [⟨"Alice", "hi"⟩] [⟨"Alice", "hi"⟩] rfl

theorem jsSplitList_ne_nil (sep : Char) (l : List Char) : jsSplitList sep l ≠ [] := by
  cases l with
  | nil => simp [jsSplitList]
  | cons c rest =>
    simp only [jsSplitList]
    cases h : jsSplitList sep rest with
    | nil => simp
    | cons p ps => by_cases hc : c = sep <;> simp [hc]

theorem jsSplitList_no_sep (sep : Char) :
    ∀ l : List Char, sep ∉ l → jsSplitList sep l = [l] := by
  intro l
  induction l with
  | nil => intro _; rfl
  | cons c rest ih =>
    intro hmem
    have hc : ¬(c = sep) := fun h => hmem (by simp [h])
    have hrest : sep ∉ rest := fun h => hmem (List.mem_cons_of_mem _ h)
    simp [jsSplitList, ih hrest, hc]

theorem jsSplitList_sep_append (sep : Char) :
    ∀ a b : List Char, sep ∉ a →
      jsSplitList sep (a ++ sep :: b) = a :: jsSplitList sep b := by
  intro a
  induction a with
  | nil =>
    intro b _
    rcases hb : jsSplitList sep b with _ | ⟨p, ps⟩
    · exact absurd hb (jsSplitList_ne_nil sep b)
    · simp [jsSplitList, hb]
  | cons c a' ih =>
    intro b hmem
    have hc : ¬(c = sep) := fun h => hmem (by simp [h])
    have ha' : sep ∉ a' := fun h => hmem (List.mem_cons_of_mem _ h)
    simp [jsSplitList, ih b ha', hc]

theorem natToString_no_sep (i : Nat) (sep : Char) (hsep : sep.isDigit = false) :
    sep ∉ (natToString i).data := by
  intro hmem
  have hd := natToDigitsAux_all_digits (i + 1) i (Nat.lt_succ_self i) sep hmem
  rw [hsep] at hd
  exact Bool.false_ne_true hd

theorem jsSplit_chat_key (i : Nat) :
    jsSplit '_' ("chat_" ++ natToString i) = ["chat", natToString i] := by
  have hdata : ("chat_" ++ natToString i).data
      = ['c', 'h', 'a', 't'] ++ '_' :: (natToString i).data := rfl
  have hnodigit : '_' ∉ (natToString i).data := natToString_no_sep i '_' (by decide)
  have hna : ('_' : Char) ∉ ['c', 'h', 'a', 't'] := by decide
  rw [jsSplit, hdata, jsSplitList_sep_append _ _ _ hna, jsSplitList_no_sep _ _ hnodigit]
  rfl

theorem chatKeyIndex_chat_key (i : Nat) :
    chatKeyIndex ("chat_" ++ natToString i) = some i := by
  simp [chatKeyIndex, jsSplit_chat_key, jsParseIntNat_natToString]

/-- C10: when every key of the localized result has the shape chat_i with
i a valid index into the original chat array, recombination succeeds;
and for the localized result with the single key chat over a one-message
chat, the lookup dereferences a missing message and the call fails
(returns none, a thrown TypeError in the source). -/
theorem localizeChatRecombine_precondition (chat : List ChatMessage)
    (localized : List (String × String))
    (hkeys : ∀ kv ∈ localized, ∃ i : Nat, i < chat.length ∧
      kv.1 = "chat_" ++ natToString i) :
    (localizeChatRecombine chat localized).isSome = true ∧
    localizeChatRecombine [⟨"A", "hi"⟩] [("chat", "hola")] = none := by
  refine ⟨?_, by decide⟩
  induction localized with
  | nil => simp [localizeChatRecombine]
  | cons kv rest ih =>
    obtain ⟨i, hi, hkey⟩ := hkeys kv (List.mem_cons_self kv rest)
    have hidx : chatKeyIndex kv.1 = some i := by rw [hkey]; exact chatKeyIndex_chat_key i
    have hm : chat[i]? = some chat[i] := List.getElem?_eq_getElem hi
    have hrest := ih fun kv' h => hkeys kv' (List.mem_cons_of_mem _ h)
    obtain ⟨l, hl⟩ := Option.isSome_iff_exists.mp hrest
    simp [localizeChatRecombine, hidx, hm, hl]

/-- Witness for C10 at a concrete chat and localized result. -/
theorem localizeChatRecombine_precondition_witness :
    (localizeChatRecombine [⟨"A", "a"⟩, ⟨"B", "b"⟩]
        [("chat_0", "x"), ("chat_1", "y")]).isSome = true ∧
    localizeChatRecombine [⟨"A", "hi"⟩] [("chat", "hola")] = none := by
  refine localizeChatRecombine_precondition _ _ ?_
  intro kv hkv
  simp only [List.mem_cons, List.not_mem_nil, or_false] at hkv
  rcases hkv with h | h
  · exact ⟨0, by decide, by rw [h]; decide⟩
  · exact ⟨1, by decide, by rw [h]; decide⟩

/- ===================== HTML document model ===================== -/

/-- Node of the parsed HTML document: an element with a tag, attributes
in document order and child nodes, a text node, or a comment node
(standing for every node kind that is neither an element nor text). -/
inductive DomNode where
  | element (tag : String) (attrs : List (String × String)) (children : List DomNode)
  | text (content : String)
  | comment (content : String)

/-- Parsed document as localizeHtml sees it: the root html element's
attributes and the attributes and children of its head and body
subtrees. -/
structure HtmlDocument where
  htmlAttrs : List (String × String)
  headAttrs : List (String × String)
  headChildren : List DomNode
  bodyAttrs : List (String × String)
  bodyChildren : List DomNode

/-- Model of Element.getAttribute: the value of the first attribute with
the given name, none when absent (null in JavaScript). -/
def getAttr (attrs : List (String × String)) (name : String) : Option String :=
  match attrs with
  | [] => none
  | (k, v) :: rest => if k = name then some v else getAttr rest name

/-- Model of Element.setAttribute: replace the value of the first
attribute with the given name in place, or append the attribute. -/
def setAttrList (attrs : List (String × String)) (name value : String) :
    List (String × String) :=
  match attrs with
  | [] => [(name, value)]
  | (k, v) :: rest =>
    if k = name then (k, value) :: rest else (k, v) :: setAttrList rest name value

def LOCALIZABLE_ATTRIBUTES : List (String × List String) :=
  [("meta", ["content"]), ("img", ["alt"]), ("input", ["placeholder"]), ("a", ["title"])]

def UNLOCALIZABLE_TAGS : List String := ["script", "style"]

def lookupAttrsList : List (String × List String) → String → List String
  | [], _ => []
  | (k, v) :: rest, tag => if k = tag then v else lookupAttrsList rest tag

/-- Localizable attributes of an element, LOCALIZABLE_ATTRIBUTES[tagName]
with the missing case defaulting to the empty list. -/
def localizableAttrsFor (tag : String) : List String :=
  lookupAttrsList LOCALIZABLE_ATTRIBUTES tag

/-- Child filter used by the source for both path computation and
re-application: element nodes, plus text nodes whose trimmed content is
non-empty. -/
def isLocalizableNode : DomNode → Bool
  | .element _ _ _ => true
  | .text s => jsTrim s != ""
  | .comment _ => false

/-- Filtered children paired with their raw index in the full child
list.  The filtered position of a pair in this list is the index the
source computes with siblings.indexOf; the raw index is bookkeeping the
model uses to address the node functionally. -/
def filteredChildrenIdxFrom (start : Nat) : List DomNode → List (Nat × DomNode)
  | [] => []
  | n :: rest =>
    if isLocalizableNode n then (start, n) :: filteredChildrenIdxFrom (start + 1) rest
    else filteredChildrenIdxFrom (start + 1) rest

def filteredChildrenIdx (ns : List DomNode) : List (Nat × DomNode) :=
  filteredChildrenIdxFrom 0 ns

/-- Attribute entries contributed by one element: for each localizable
attribute of the tag whose value is present and truthy (non-empty), the
pair of the attribute path and the value. -/
def attrEntries (tag : String) (attrs : List (String × String)) (path : String) :
    List (String × String) :=
  (localizableAttrsFor tag).filterMap fun a =>
    match getAttr attrs a with
    | some v => if v = "" then none else some (path ++ "#" ++ a, v)
    | none => none

/- processNode of localizeHtml.  The source walks the parentElement
chain of every node and returns early when an ancestor tag is in
UNLOCALIZABLE_TAGS; the recursion carries the accumulated list of
ancestor tags (nearest first), which is exactly the chain that walk
visits.  Paths are built top down: the source computes them bottom up
per node (getPath), recording at each level the index of the node in
its parent's filtered children, which is the index this recursion
assigns when it descends. -/
mutual
/-- Entries extracted from one node whose path is `path` and whose
ancestor tags are `ancestors`. -/
def processNode (ancestors : List String) (path : String) : DomNode → List (String × String)
  | .text s =>
    if ancestors.any (fun t => UNLOCALIZABLE_TAGS.contains t) then []
    else if jsTrim s != "" then [(path, jsTrim s)] else []
  | .comment _ => []
  | .element tag attrs children =>
    if ancestors.any (fun t => UNLOCALIZABLE_TAGS.contains t) then []
    else
      attrEntries tag attrs path ++ processChildren (tag :: ancestors) path 0 children
/-- Entries extracted from the filtered children of an element, where
`idx` filtered children have already been enumerated. -/
def processChildren (ancestors : List String) (base : String) (idx : Nat) :
    List DomNode → List (String × String)
  | [] => []
  | c :: rest =>
    if isLocalizableNode c then
      processNode ancestors (base ++ "/" ++ natToString idx) c ++
        processChildren ancestors base (idx + 1) rest
    else
      processChildren ancestors base idx rest
end

/-- Extraction pass of localizeHtml: one walk rooted at the head subtree
and one at the body subtree, in that order.  The ancestor chain of a
top-level child is its subtree root followed by the html element. -/
def extractHtmlContent (doc : HtmlDocument) : List (String × String) :=
  processChildren ["head", "html"] "head" 0 doc.headChildren ++
    processChildren ["body", "html"] "body" 0 doc.bodyChildren

/- ===================== Re-application ===================== -/

def modifyIdx (f : DomNode → DomNode) : Nat → List DomNode → List DomNode
  | _, [] => []
  | 0, n :: rest => f n :: rest
  | i + 1, n :: rest => n :: modifyIdx f i rest

/-- Apply `f` to the node addressed by a non-empty list of raw child
indices, descending through element children. -/
def modifyNodeAt (f : DomNode → DomNode) : List Nat → List DomNode → List DomNode
  | [], ns => ns
  | [r], ns => modifyIdx f r ns
  | r :: rest, ns =>
    modifyIdx
      (fun n =>
        match n with
        | .element t a cs => .element t a (modifyNodeAt f rest cs)
        | other => other)
      r ns

/-- Node addressed by a non-empty list of raw child indices. -/
def getNodeAtRaw : List Nat → List DomNode → Option DomNode
  | [], _ => none
  | [r], ns => ns.get? r
  | r :: rest, ns =>
    match ns.get? r with
    | some (.element _ _ cs) => getNodeAtRaw rest cs
    | _ => none

/-- Resolution loop of the re-application step.  The state mirrors the
source exactly: `parentChildren` are the children of the current parent
element, `current` is the last resolved node (none after a failed
index), and each step looks the parsed index up in the parent's filtered
children.  A failed lookup sets current to null but leaves the parent
unchanged, and the loop continues with the remaining indices.  Only a
resolved element becomes the new parent.  Locations (`List Nat` of raw
indices relative to the subtree root) are the functional rendering of
the node references the source holds. -/
def resolveLoop (parentChildren : List DomNode) (parentLoc : List Nat)
    (current : Option (List Nat × DomNode)) :
    List (Option Nat) → Option (List Nat × DomNode)
  | [] => current
  | iOpt :: rest =>
    match iOpt.bind fun i => (filteredChildrenIdx parentChildren).get? i with
    | none => resolveLoop parentChildren parentLoc none rest
    | some (raw, n) =>
      match n with
      | .element t a cs =>
        resolveLoop cs (parentLoc ++ [raw])
          (some (parentLoc ++ [raw], .element t a cs)) rest
      | other => resolveLoop parentChildren parentLoc (some (parentLoc ++ [raw], other)) rest

/-- Model of assigning textContent: a text (or comment) node's content is
replaced; an element's children are replaced by a single text node, or
by nothing when the value is empty. -/
def setTextContentNode (value : String) : DomNode → DomNode
  | .element t a _ => .element t a (if value = "" then [] else [.text value])
  | .text _ => .text value
  | .comment _ => .comment value

/-- Model of setAttribute on a resolved node.  In the source, calling
setAttribute on a text node throws a TypeError; that case is unreachable
for paths produced by extraction against an unmutated document, and the
model leaves non-element nodes unchanged there. -/
def setAttrOnNode (name value : String) : DomNode → DomNode
  | .element t a cs => .element t (setAttrList a name value) cs
  | other => other

/-- Parsed form of a localized-map key: the node path and optional
attribute name from the hash split, the root tag and parsed index list
from the slash split. -/
structure ParsedPath where
  nodePath : String
  attrPart : Option String
  rootTag : String
  indices : List (Option Nat)

def parseEntryKey (key : String) : ParsedPath :=
  let hashParts := jsSplit '#' key
  let nodePath := hashParts.headD ""
  let slashParts := jsSplit '/' nodePath
  { nodePath := nodePath
    attrPart := hashParts.get? 1
    rootTag := slashParts.headD ""
    indices := slashParts.tail.map jsParseIntNat }

/-- Resolution of one localized-map key against the document: the head
subtree is chosen when the root tag is head, the body subtree otherwise,
and the parsed indices are fed to the resolution loop starting with the
subtree root element as both parent and current node. -/
def resolveEntry (doc : HtmlDocument) (key : String) : Option (List Nat × DomNode) :=
  let p := parseEntryKey key
  let isHead := p.rootTag = "head"
  let cs := if isHead then doc.headChildren else doc.bodyChildren
  let rootAttrs := if isHead then doc.headAttrs else doc.bodyAttrs
  resolveLoop cs []
    (some ([], .element (if isHead then "head" else "body") rootAttrs cs)) p.indices

/-- Truthy attribute part of a parsed key: present and non-empty
(JavaScript truthiness of the string after the hash). -/
def useAttrOf (attrPart : Option String) : Option String :=
  match attrPart with
  | some a => if a = "" then none else some a
  | none => none

/-- The mutation applied to the resolved node: setAttribute when the
attribute part is truthy, textContent assignment otherwise. -/
def entryModify (attrPart : Option String) (value : String) : DomNode → DomNode :=
  match useAttrOf attrPart with
  | some a => setAttrOnNode a value
  | none => setTextContentNode value

/-- Re-application of one localized entry, mirroring the body of the
forEach of localizeHtml: split the key on the hash into a node path and
an optional attribute name, split the node path on slashes into a root
tag and an index list, resolve the indices from the head subtree when
the root tag is head and from the body subtree otherwise, then either
set the attribute (when the attribute part is present and non-empty,
JavaScript truthiness) or assign textContent; entries whose resolution
ends with no node are skipped. -/
def applyEntry (doc : HtmlDocument) (kv : String × String) : HtmlDocument :=
  let p := parseEntryKey kv.1
  let attrPart := p.attrPart
  let isHead := p.rootTag = "head"
  match resolveEntry doc kv.1 with
  | none => doc
  | some (loc, _) =>
    match loc with
    | [] =>
      match useAttrOf attrPart with
      | some a =>
        if isHead then { doc with headAttrs := setAttrList doc.headAttrs a kv.2 }
        else { doc with bodyAttrs := setAttrList doc.bodyAttrs a kv.2 }
      | none =>
        if isHead then
          { doc with headChildren := if kv.2 = "" then [] else [.text kv.2] }
        else
          { doc with bodyChildren := if kv.2 = "" then [] else [.text kv.2] }
    | _ :: _ =>
      if isHead then
        { doc with headChildren :=
            modifyNodeAt (entryModify attrPart kv.2) loc doc.headChildren }
      else
        { doc with bodyChildren :=
            modifyNodeAt (entryModify attrPart kv.2) loc doc.bodyChildren }

/-- Re-application of the whole localized map, in entry order. -/
def applyLocalizedContent (doc : HtmlDocument) (entries : List (String × String)) :
    HtmlDocument :=
  entries.foldl applyEntry doc

/-- Unconditional update of the root lang attribute performed before
re-application. -/
def setHtmlLang (doc : HtmlDocument) (locale : String) : HtmlDocument :=
  { doc with htmlAttrs := setAttrList doc.htmlAttrs "lang" locale }

/-- localizeHtml with the identity translation: every extracted value is
translated to itself, so the re-applied map is exactly the extracted
map (flatten-concatenating the chunks of the batching pipeline gives the
extracted entries back in order, see extractPayloadChunksGo_flatten).
The lang attribute is set before the entries are applied, as in the
source. -/
def localizeHtmlIdentity (doc : HtmlDocument) (targetLocale : String) : HtmlDocument :=
  applyLocalizedContent (setHtmlLang doc targetLocale) (extractHtmlContent doc)

/- ===================== Silent skip during re-application (C6) ===================== -/

/-- C6 counterexample: on a body holding one p element, the entry with
path body/9/0 fails to resolve index 9 (the body has a single filtered
child), yet the loop continues with the old parent, resolves index 0 to
the p element, and re-application overwrites that element's content.  An
entry whose index sequence fails at an intermediate step is thus not
skipped and does modify the document. -/
theorem applyEntry_intermediate_failure_modifies :
    (applyEntry ⟨[], [], [], [], [.element "p" [] [.text "hello"]]⟩
        ("body/9/0", "CHANGED")).bodyChildren =
      [.element "p" [] [.text "CHANGED"]] ∧
    applyEntry ⟨[], [], [], [], [.element "p" [] [.text "hello"]]⟩ ("body/9/0", "CHANGED") ≠
      ⟨[], [], [], [], [.element "p" [] [.text "hello"]]⟩ := by
  refine ⟨rfl, ?_⟩
  intro h
  have hb : ([DomNode.element "p" [] [.text "CHANGED"]] : List DomNode) =
      [DomNode.element "p" [] [.text "hello"]] :=
    congrArg HtmlDocument.bodyChildren h
  simp only [List.cons.injEq, DomNode.element.injEq, DomNode.text.injEq, and_true,
    true_and] at hb
  exact absurd hb (by decide)

/-- C6 amended: an entry whose resolution leaves no current node at the
end of the index walk is silently skipped (the document is returned
unchanged and no error is raised, re-application being a total
function); but an index that fails at an intermediate step does not by
itself skip the entry: the loop continues against the unchanged parent,
so later indices may still resolve and the entry may modify a node. -/
theorem applyEntry_skip_on_unresolved (doc : HtmlDocument) (kv : String × String)
    (hres : resolveEntry doc kv.1 = none) :
    applyEntry doc kv = doc ∧
    ∀ (pcs : List DomNode) (ploc : List Nat) (cur : Option (List Nat × DomNode))
      (iOpt : Option Nat) (rest : List (Option Nat)),
      (iOpt.bind fun i => (filteredChildrenIdx pcs).get? i) = none →
      resolveLoop pcs ploc cur (iOpt :: rest) = resolveLoop pcs ploc none rest := by
  constructor
  · simp [applyEntry, hres]
  · intro pcs ploc cur iOpt rest hfail
    have hfail2 : (iOpt.bind fun i => (filteredChildrenIdx pcs)[i]?) = none := by
      simpa using hfail
    simp [resolveLoop, hfail2]

/-- Witness for C6 amended: an entry addressing the empty body resolves
to nothing and leaves the document unchanged, and a failed first index
leaves the loop running on the remaining indices with a null current
node. -/
theorem applyEntry_skip_on_unresolved_witness :
    applyEntry ⟨[], [], [], [], []⟩ ("body/0", "x") = (⟨[], [], [], [], []⟩ : HtmlDocument) ∧
    resolveLoop [] [] (some ([], .text "t")) (some 0 :: [some 1]) =
      resolveLoop [] [] none [some 1] :=
  ⟨(applyEntry_skip_on_unresolved ⟨[], [], [], [], []⟩ ("body/0", "x") rfl).1,
    (applyEntry_skip_on_unresolved ⟨[], [], [], [], []⟩ ("body/0", "x") rfl).2
      [] [] (some ([], .text "t")) (some 0) [some 1] rfl⟩

/- ===================== Unlocalizable subtrees (C7) ===================== -/

/- Erasure of the contents of script and style elements: their attributes
and children are removed, everything else is kept. -/
mutual
/-- Erase attributes and children of script and style elements. -/
def stripUnlocalizableNode : DomNode → DomNode
  | .element t a cs =>
    if UNLOCALIZABLE_TAGS.contains t then .element t [] []
    else .element t a (stripUnlocalizableNodes cs)
  | .text s => .text s
  | .comment s => .comment s
/-- Erase script and style contents in a list of nodes. -/
def stripUnlocalizableNodes : List DomNode → List DomNode
  | [] => []
  | n :: rest => stripUnlocalizableNode n :: stripUnlocalizableNodes rest
end

def stripUnlocalizableDoc (doc : HtmlDocument) : HtmlDocument :=
  { doc with
      headChildren := stripUnlocalizableNodes doc.headChildren
      bodyChildren := stripUnlocalizableNodes doc.bodyChildren }

theorem processNode_blocked (anc : List String) (path : String) (n : DomNode)
    (hb : anc.any (fun t => UNLOCALIZABLE_TAGS.contains t) = true) :
    processNode anc path n = [] := by
  cases n with
  | text s =>
    simp only [processNode]
    rw [if_pos hb]
  | comment s => rfl
  | element tag attrs cs =>
    simp only [processNode]
    rw [if_pos hb]

theorem processChildren_blocked (anc : List String) (base : String) (ns : List DomNode)
    (hb : anc.any (fun t => UNLOCALIZABLE_TAGS.contains t) = true) :
    ∀ idx, processChildren anc base idx ns = [] := by
  induction ns with
  | nil => intro idx; rfl
  | cons c rest ih =>
    intro idx
    simp only [processChildren]
    by_cases hc : isLocalizableNode c = true
    · simp [hc, processNode_blocked anc _ c hb, ih]
    · simp [hc, ih]

theorem getAttr_nil (name : String) : getAttr [] name = none := rfl

theorem attrEntries_no_attrs (tag path : String) : attrEntries tag [] path = [] := by
  simp [attrEntries, getAttr]

theorem localizableAttrsFor_unlocalizable (t : String)
    (h : UNLOCALIZABLE_TAGS.contains t = true) : localizableAttrsFor t = [] := by
  have h2 : t = "script" ∨ t = "style" := by simpa [UNLOCALIZABLE_TAGS] using h
  rcases h2 with h2 | h2 <;> subst h2 <;> rfl

theorem isLocalizableNode_strip (n : DomNode) :
    isLocalizableNode (stripUnlocalizableNode n) = isLocalizableNode n := by
  cases n with
  | element t a cs =>
    simp only [stripUnlocalizableNode]
    by_cases h : UNLOCALIZABLE_TAGS.contains t = true
    · rw [if_pos h]; rfl
    · rw [if_neg h]; rfl
  | text s => rfl
  | comment s => rfl

theorem processNode_strip_all :
    (∀ (anc : List String) (path : String) (n : DomNode),
      processNode anc path (stripUnlocalizableNode n) = processNode anc path n) ∧
    (∀ (anc : List String) (base : String) (idx : Nat) (ns : List DomNode),
      processChildren anc base idx (stripUnlocalizableNodes ns) =
        processChildren anc base idx ns) :=
  processNode.mutual_induct
    (fun anc path n =>
      processNode anc path (stripUnlocalizableNode n) = processNode anc path n)
    (fun anc base idx ns =>
      processChildren anc base idx (stripUnlocalizableNodes ns) =
        processChildren anc base idx ns)
    (fun _ _ _ _ => rfl)
    (fun _ _ _ _ _ => rfl)
    (fun _ _ _ _ _ => rfl)
    (fun _ _ _ => rfl)
    (fun anc path tag attrs children hb => by
      dsimp only
      rw [processNode_blocked anc path _ hb, processNode_blocked anc path _ hb])
    (fun anc path tag attrs children hb ih => by
      dsimp only
      dsimp only at ih
      by_cases hs : UNLOCALIZABLE_TAGS.contains tag = true
      · have hstrip : stripUnlocalizableNode (.element tag attrs children) =
            .element tag [] [] := by
          simp only [stripUnlocalizableNode]
          rw [if_pos hs]
        rw [hstrip]
        simp only [processNode]
        rw [if_neg hb, if_neg hb]
        rw [attrEntries_no_attrs]
        have hattrs : attrEntries tag attrs path = [] := by
          simp [attrEntries, localizableAttrsFor_unlocalizable tag hs]
        rw [hattrs]
        have hblocked : ((tag :: anc).any fun t => UNLOCALIZABLE_TAGS.contains t) = true := by
          simp only [List.any_cons, hs, Bool.true_or]
        rw [processChildren_blocked _ _ _ hblocked, processChildren_blocked _ _ _ hblocked]
      · have hstrip : stripUnlocalizableNode (.element tag attrs children) =
            .element tag attrs (stripUnlocalizableNodes children) := by
          simp only [stripUnlocalizableNode]
          rw [if_neg hs]
        rw [hstrip]
        simp only [processNode]
        rw [if_neg hb, if_neg hb, ih])
    (fun _ _ _ => rfl)
    (fun anc base idx n rest hn ihn ihrest => by
      dsimp only
      dsimp only at ihn ihrest
      simp only [stripUnlocalizableNodes, processChildren, isLocalizableNode_strip n]
      simp [hn, ihn, ihrest])
    (fun anc base idx n rest hn ihrest => by
      dsimp only
      dsimp only at ihrest
      simp only [stripUnlocalizableNodes, processChildren, isLocalizableNode_strip n]
      simp [hn, ihrest])

/-- C7: the extracted localizable-content map never depends on anything
inside a script or style element.  Erasing the attributes and the whole
descendant subtree of every script and style element leaves the
extracted map unchanged for every document, so no text content or
attribute value of such an element (or of any of its descendants) is
ever extracted; in particular the extraction of a body holding only a
script element with content alert(1) is empty. -/
theorem extractHtmlContent_ignores_unlocalizable (doc : HtmlDocument) :
    extractHtmlContent (stripUnlocalizableDoc doc) = extractHtmlContent doc ∧
    extractHtmlContent ⟨[], [], [], [], [.element "script" [] [.text "alert(1)"]]⟩ = [] := by
  constructor
  · simp only [extractHtmlContent, stripUnlocalizableDoc]
    rw [processNode_strip_all.2, processNode_strip_all.2]
  · decide

/- ===================== Identity round trip (C3): paths ===================== -/

/-- Rendering of a filtered-index path as the suffix the extraction walk
appends to the subtree root tag. -/
def renderSteps : List Nat → String
  | [] => ""
  | i :: rest => "/" ++ natToString i ++ renderSteps rest

/-- Path string of a node at filtered indices `fis` under root tag
`root`, as built by the extraction walk. -/
def pathString (root : String) (fis : List Nat) : String := root ++ renderSteps fis

theorem renderSteps_append (a b : List Nat) :
    renderSteps (a ++ b) = renderSteps a ++ renderSteps b := by
  induction a with
  | nil => simp [renderSteps, String.empty_append]
  | cons i rest ih => simp [renderSteps, ih, String.append_assoc]

theorem pathString_append_one (root : String) (fis : List Nat) (j : Nat) :
    pathString root (fis ++ [j]) = pathString root fis ++ "/" ++ natToString j := by
  simp [pathString, renderSteps_append, renderSteps, String.append_assoc,
    String.append_empty]

theorem char_not_mem_renderSteps (c : Char) (hslash : c ≠ '/') (hdig : c.isDigit = false) :
    ∀ fis : List Nat, c ∉ (renderSteps fis).data := by
  intro fis
  induction fis with
  | nil => intro h; simp [renderSteps] at h
  | cons i rest ih =>
    intro hmem
    have hd : (renderSteps (i :: rest)).data
        = '/' :: ((natToString i).data ++ (renderSteps rest).data) := by
      simp [renderSteps, String.data_append]
    rw [hd] at hmem
    rcases List.mem_cons.mp hmem with h1 | h1
    · exact hslash h1
    · rcases List.mem_append.mp h1 with h2 | h2
      · exact natToString_no_sep i c hdig h2
      · exact ih h2

theorem char_not_mem_pathString (c : Char) (root : String) (fis : List Nat)
    (hroot : c ∉ root.data) (hslash : c ≠ '/') (hdig : c.isDigit = false) :
    c ∉ (pathString root fis).data := by
  intro hmem
  simp only [pathString, String.data_append] at hmem
  rcases List.mem_append.mp hmem with h | h
  · exact hroot h
  · exact char_not_mem_renderSteps c hslash hdig fis h

theorem jsSplit_slash_pathString (fis : List Nat) :
    ∀ root : String, '/' ∉ root.data →
      jsSplit '/' (pathString root fis) = root :: fis.map natToString := by
  induction fis with
  | nil =>
    intro root hroot
    have h0 : pathString root [] = root := by
      simp [pathString, renderSteps, String.append_empty]
    rw [h0, jsSplit, jsSplitList_no_sep _ _ hroot]
    rfl
  | cons j rest ih =>
    intro root hroot
    have hdig : '/' ∉ (natToString j).data := natToString_no_sep j '/' (by decide)
    have ihj := ih (natToString j) hdig
    have hdata : (pathString root (j :: rest)).data
        = root.data ++ '/' :: (pathString (natToString j) rest).data := by
      simp [pathString, renderSteps, String.data_append, List.append_assoc]
    rw [jsSplit, hdata, jsSplitList_sep_append _ _ _ hroot, List.map_cons]
    rw [jsSplit] at ihj
    rw [ihj]
    rfl

theorem jsSplit_hash_free (s : String) (h : '#' ∉ s.data) : jsSplit '#' s = [s] := by
  rw [jsSplit, jsSplitList_no_sep _ _ h]
  rfl

theorem jsSplit_hash_attr (p a : String) (hp : '#' ∉ p.data) (ha : '#' ∉ a.data) :
    jsSplit '#' (p ++ "#" ++ a) = [p, a] := by
  have hdata : (p ++ "#" ++ a).data = p.data ++ '#' :: a.data := by
    simp [String.data_append]
  rw [jsSplit, hdata, jsSplitList_sep_append _ _ _ hp, jsSplitList_no_sep _ _ ha]
  rfl

theorem map_parseInt_map_natToString (fis : List Nat) :
    (fis.map natToString).map jsParseIntNat = fis.map some := by
  induction fis with
  | nil => rfl
  | cons j rest ih => simp [jsParseIntNat_natToString, ih]

theorem parseEntryKey_text (root : String) (fis : List Nat)
    (hroot : '/' ∉ root.data) (hhash : '#' ∉ root.data) :
    parseEntryKey (pathString root fis) =
      { nodePath := pathString root fis, attrPart := none,
        rootTag := root, indices := fis.map some } := by
  have hnohash : '#' ∉ (pathString root fis).data :=
    char_not_mem_pathString '#' root fis hhash (by decide) (by decide)
  simp only [parseEntryKey]
  rw [jsSplit_hash_free _ hnohash]
  simp [jsSplit_slash_pathString fis root hroot, map_parseInt_map_natToString,
    jsParseIntNat_natToString]

theorem parseEntryKey_attr (root : String) (fis : List Nat) (a : String)
    (hroot : '/' ∉ root.data) (hhash : '#' ∉ root.data) (ha : '#' ∉ a.data) :
    parseEntryKey (pathString root fis ++ "#" ++ a) =
      { nodePath := pathString root fis, attrPart := some a,
        rootTag := root, indices := fis.map some } := by
  have hnohash : '#' ∉ (pathString root fis).data :=
    char_not_mem_pathString '#' root fis hhash (by decide) (by decide)
  simp only [parseEntryKey]
  rw [jsSplit_hash_attr _ _ hnohash ha]
  simp [jsSplit_slash_pathString fis root hroot, map_parseInt_map_natToString,
    jsParseIntNat_natToString]

/- ===================== Identity round trip (C3): resolution ===================== -/

/-- Descent along filtered-child indices: the node reached from the
children `ns` by taking filtered child `j`, then the remaining filtered
indices, descending only through elements.  The first result component
is the list of raw child indices visited. -/
def followFiltered (ns : List DomNode) (j : Nat) : List Nat → Option (List Nat × DomNode)
  | [] => ((filteredChildrenIdx ns).get? j).map fun p => ([p.1], p.2)
  | k :: rest =>
    match (filteredChildrenIdx ns).get? j with
    | some (r, .element _ _ cs) =>
      (followFiltered cs k rest).map fun q => (r :: q.1, q.2)
    | _ => none

theorem filteredChildrenIdxFrom_get (c : DomNode) (hc : isLocalizableNode c = true) :
    ∀ (pre rest : List DomNode) (start : Nat),
      (filteredChildrenIdxFrom start (pre ++ c :: rest))[pre.countP isLocalizableNode]? =
        some (start + pre.length, c) := by
  intro pre
  induction pre with
  | nil =>
    intro rest start
    simp [filteredChildrenIdxFrom, hc]
  | cons p pre' ih =>
    intro rest start
    rw [List.cons_append]
    simp only [filteredChildrenIdxFrom]
    by_cases hp : isLocalizableNode p = true
    · rw [if_pos hp]
      have hcount : (p :: pre').countP isLocalizableNode
          = pre'.countP isLocalizableNode + 1 := by
        simp [List.countP_cons, hp]
      rw [hcount, List.getElem?_cons_succ, ih rest (start + 1)]
      have harith : start + 1 + pre'.length = start + (p :: pre').length := by
        simp only [List.length_cons]; omega
      rw [harith]
    · rw [if_neg hp]
      have hcount : (p :: pre').countP isLocalizableNode
          = pre'.countP isLocalizableNode := by
        simp [List.countP_cons, hp]
      rw [hcount, ih rest (start + 1)]
      have harith : start + 1 + pre'.length = start + (p :: pre').length := by
        simp only [List.length_cons]; omega
      rw [harith]

theorem filteredChildrenIdxFrom_get_raw :
    ∀ (ns : List DomNode) (start j r : Nat) (n : DomNode),
      (filteredChildrenIdxFrom start ns)[j]? = some (r, n) →
      start ≤ r ∧ ns[r - start]? = some n := by
  intro ns
  induction ns with
  | nil =>
    intro start j r n h
    simp [filteredChildrenIdxFrom] at h
  | cons c rest ih =>
    intro start j r n h
    simp only [filteredChildrenIdxFrom] at h
    by_cases hc : isLocalizableNode c = true
    · rw [if_pos hc] at h
      cases j with
      | zero =>
        simp only [List.getElem?_cons_zero, Option.some.injEq, Prod.mk.injEq] at h
        obtain ⟨h1, h2⟩ := h
        subst h2
        refine ⟨by omega, ?_⟩
        have hz : r - start = 0 := by omega
        rw [hz]
        simp
      | succ j' =>
        rw [List.getElem?_cons_succ] at h
        obtain ⟨hle, hget⟩ := ih (start + 1) j' r n h
        refine ⟨by omega, ?_⟩
        have hs : r - start = (r - (start + 1)) + 1 := by omega
        rw [hs, List.getElem?_cons_succ]
        exact hget
    · rw [if_neg hc] at h
      obtain ⟨hle, hget⟩ := ih (start + 1) j r n h
      refine ⟨by omega, ?_⟩
      have hs : r - start = (r - (start + 1)) + 1 := by omega
      rw [hs, List.getElem?_cons_succ]
      exact hget

theorem filteredChildrenIdx_get_raw (ns : List DomNode) (j r : Nat) (n : DomNode)
    (h : (filteredChildrenIdx ns)[j]? = some (r, n)) : ns[r]? = some n := by
  have := filteredChildrenIdxFrom_get_raw ns 0 j r n h
  simpa using this.2

theorem followFiltered_getNodeAtRaw :
    ∀ (rest : List Nat) (ns : List DomNode) (j : Nat) (raws : List Nat) (node : DomNode),
      followFiltered ns j rest = some (raws, node) →
      getNodeAtRaw raws ns = some node ∧ raws ≠ [] := by
  intro rest
  induction rest with
  | nil =>
    intro ns j raws node h
    simp only [followFiltered, List.get?_eq_getElem?] at h
    rcases hg : (filteredChildrenIdx ns)[j]? with _ | ⟨r, m⟩
    · rw [hg] at h; simp at h
    · rw [hg] at h
      simp only [Option.map_some', Option.some.injEq] at h
      have h2 := h.symm
      rw [Prod.mk.injEq] at h2
      obtain ⟨hr, hn⟩ := h2
      subst hr; subst hn
      refine ⟨?_, by simp⟩
      have hraw : ns[r]? = some node := filteredChildrenIdx_get_raw ns j r node hg
      simp only [getNodeAtRaw, List.get?_eq_getElem?]
      exact hraw
  | cons k rest' ih =>
    intro ns j raws node h
    simp only [followFiltered, List.get?_eq_getElem?] at h
    split at h
    · rename_i r tag attrs cs heq
      rcases hf : followFiltered cs k rest' with _ | ⟨q1, q2⟩
      · rw [hf] at h; simp at h
      · rw [hf] at h
        simp only [Option.map_some', Option.some.injEq] at h
        have h2 := h.symm
        rw [Prod.mk.injEq] at h2
        obtain ⟨hr, hn⟩ := h2
        subst hr; subst hn
        obtain ⟨hget, hne⟩ := ih cs k q1 node (by rw [hf])
        refine ⟨?_, by simp⟩
        have hraw : ns[r]? = some (.element tag attrs cs) :=
          filteredChildrenIdx_get_raw ns j r _ heq
        cases q1 with
        | nil => exact absurd rfl hne
        | cons x xs =>
          simp only [getNodeAtRaw, List.get?_eq_getElem?]
          rw [hraw]
          exact hget
    · rename_i hx heq
      simp at h

theorem resolveLoop_of_followFiltered :
    ∀ (rest : List Nat) (ns : List DomNode) (j : Nat) (raws : List Nat) (node : DomNode)
      (ploc : List Nat) (cur : Option (List Nat × DomNode)),
      followFiltered ns j rest = some (raws, node) →
      resolveLoop ns ploc cur (some j :: rest.map some) = some (ploc ++ raws, node) := by
  intro rest
  induction rest with
  | nil =>
    intro ns j raws node ploc cur h
    simp only [followFiltered, List.get?_eq_getElem?] at h
    rcases hg : (filteredChildrenIdx ns)[j]? with _ | ⟨r, m⟩
    · rw [hg] at h; simp at h
    · rw [hg] at h
      simp only [Option.map_some', Option.some.injEq] at h
      have h2 := h.symm
      rw [Prod.mk.injEq] at h2
      obtain ⟨hr, hn⟩ := h2
      subst hr; subst hn
      simp only [List.map_nil, resolveLoop, List.get?_eq_getElem?, Option.some_bind]
      rw [hg]
      cases node with
      | element t a cs => simp [resolveLoop]
      | text s => simp [resolveLoop]
      | comment s => simp [resolveLoop]
  | cons k rest' ih =>
    intro ns j raws node ploc cur h
    simp only [followFiltered, List.get?_eq_getElem?] at h
    split at h
    · rename_i r tag attrs cs heq
      rcases hf : followFiltered cs k rest' with _ | ⟨q1, q2⟩
      · rw [hf] at h; simp at h
      · rw [hf] at h
        simp only [Option.map_some', Option.some.injEq] at h
        have h2 := h.symm
        rw [Prod.mk.injEq] at h2
        obtain ⟨hr, hn⟩ := h2
        subst hr; subst hn
        simp only [List.map_cons]
        rw [resolveLoop]
        simp only [List.get?_eq_getElem?, Option.some_bind]
        rw [heq]
        have hrec := ih cs k q1 node (ploc ++ [r])
          (some (ploc ++ [r], DomNode.element tag attrs cs)) (by rw [hf])
        rw [show (ploc ++ [r]) ++ q1 = ploc ++ (r :: q1) by simp] at hrec
        exact hrec
    · rename_i hx heq
      simp at h

/- ===================== Identity round trip (C3): modification ===================== -/

theorem modifyIdx_id (f : DomNode → DomNode) :
    ∀ (r : Nat) (ns : List DomNode) (x : DomNode),
      ns[r]? = some x → f x = x → modifyIdx f r ns = ns := by
  intro r
  induction r with
  | zero =>
    intro ns x hx hfx
    cases ns with
    | nil => simp at hx
    | cons n rest =>
      simp only [List.getElem?_cons_zero, Option.some.injEq] at hx
      subst hx
      simp [modifyIdx, hfx]
  | succ r' ih =>
    intro ns x hx hfx
    cases ns with
    | nil => simp at hx
    | cons n rest =>
      rw [List.getElem?_cons_succ] at hx
      simp [modifyIdx, ih rest x hx hfx]

theorem modifyNodeAt_id (f : DomNode → DomNode) :
    ∀ (raws : List Nat) (ns : List DomNode) (node : DomNode),
      getNodeAtRaw raws ns = some node → f node = node → modifyNodeAt f raws ns = ns := by
  intro raws
  induction raws with
  | nil => intro ns node h _; simp [getNodeAtRaw] at h
  | cons r rest ih =>
    intro ns node h hf
    cases rest with
    | nil =>
      simp only [getNodeAtRaw, List.get?_eq_getElem?] at h
      exact modifyIdx_id f r ns node h hf
    | cons r' rest' =>
      simp only [getNodeAtRaw, List.get?_eq_getElem?] at h
      rcases hg : ns[r]? with _ | m
      · rw [hg] at h; simp at h
      · rw [hg] at h
        cases m with
        | text s => simp at h
        | comment s => simp at h
        | element t a cs =>
          have hrec := ih cs node h hf
          show modifyIdx _ r ns = ns
          refine modifyIdx_id _ r ns (.element t a cs) hg ?_
          simp [hrec]

/- ===================== Identity round trip (C3): trimmed text ===================== -/

/- Predicate: every text node of the subtree already equals its own trim
(or is whitespace-only, in which case it is not extracted). -/
mutual
/-- All texts of one node trimmed or blank. -/
def nodeTextsTrimmed : DomNode → Bool
  | .element _ _ cs => nodesTextsTrimmed cs
  | .text s => jsTrim s == s || jsTrim s == ""
  | .comment _ => true
/-- All texts of a node list trimmed or blank. -/
def nodesTextsTrimmed : List DomNode → Bool
  | [] => true
  | n :: rest => nodeTextsTrimmed n && nodesTextsTrimmed rest
end

theorem nodesTextsTrimmed_get (ns : List DomNode) (r : Nat) (n : DomNode)
    (htr : nodesTextsTrimmed ns = true) (h : ns[r]? = some n) :
    nodeTextsTrimmed n = true := by
  induction ns generalizing r with
  | nil => simp at h
  | cons c rest ih =>
    simp only [nodesTextsTrimmed, Bool.and_eq_true] at htr
    cases r with
    | zero =>
      simp only [List.getElem?_cons_zero, Option.some.injEq] at h
      subst h
      exact htr.1
    | succ r' =>
      rw [List.getElem?_cons_succ] at h
      exact ih r' htr.2 h

theorem getNodeAtRaw_trimmed :
    ∀ (raws : List Nat) (ns : List DomNode) (node : DomNode),
      nodesTextsTrimmed ns = true → getNodeAtRaw raws ns = some node →
      nodeTextsTrimmed node = true := by
  intro raws
  induction raws with
  | nil => intro ns node _ h; simp [getNodeAtRaw] at h
  | cons r rest ih =>
    intro ns node htr h
    cases rest with
    | nil =>
      simp only [getNodeAtRaw, List.get?_eq_getElem?] at h
      exact nodesTextsTrimmed_get ns r node htr h
    | cons r' rest' =>
      simp only [getNodeAtRaw, List.get?_eq_getElem?] at h
      rcases hg : ns[r]? with _ | m
      · rw [hg] at h; simp at h
      · rw [hg] at h
        cases m with
        | text s => simp at h
        | comment s => simp at h
        | element t a cs =>
          have hcs : nodesTextsTrimmed cs = true := nodesTextsTrimmed_get ns r _ htr hg
          exact ih cs node hcs h

/- ===================== Identity round trip (C3): attributes ===================== -/

theorem setAttrList_getAttr_id :
    ∀ (attrs : List (String × String)) (name v : String),
      getAttr attrs name = some v → setAttrList attrs name v = attrs := by
  intro attrs
  induction attrs with
  | nil => intro name v h; simp [getAttr] at h
  | cons kv rest ih =>
    intro name v h
    obtain ⟨k, w⟩ := kv
    simp only [getAttr] at h
    simp only [setAttrList]
    by_cases hk : k = name
    · rw [if_pos hk] at h
      simp only [Option.some.injEq] at h
      subst h
      rw [if_pos hk]
    · rw [if_neg hk] at h
      rw [if_neg hk, ih name v h]

theorem localizableAttr_cases (t a : String) (h : a ∈ localizableAttrsFor t) :
    a = "content" ∨ a = "alt" ∨ a = "placeholder" ∨ a = "title" := by
  simp only [localizableAttrsFor, LOCALIZABLE_ATTRIBUTES, lookupAttrsList] at h
  split_ifs at h <;> simp_all

theorem localizableAttr_ne_empty (t a : String) (h : a ∈ localizableAttrsFor t) :
    a ≠ "" := by
  rcases localizableAttr_cases t a h with h1 | h1 | h1 | h1 <;> subst h1 <;> decide

theorem localizableAttr_no_hash (t a : String) (h : a ∈ localizableAttrsFor t) :
    '#' ∉ a.data := by
  rcases localizableAttr_cases t a h with h1 | h1 | h1 | h1 <;> subst h1 <;> decide

theorem attrEntries_mem (tag : String) (attrs : List (String × String)) (path : String)
    (kv : String × String) (h : kv ∈ attrEntries tag attrs path) :
    ∃ a, a ∈ localizableAttrsFor tag ∧ getAttr attrs a = some kv.2 ∧ kv.2 ≠ "" ∧
      kv.1 = path ++ "#" ++ a := by
  obtain ⟨k1, k2⟩ := kv
  simp only [attrEntries, List.mem_filterMap] at h
  obtain ⟨a, ha, hm⟩ := h
  rcases hv : getAttr attrs a with _ | v
  · rw [hv] at hm; simp at hm
  · rw [hv] at hm
    by_cases hv0 : v = ""
    · subst hv0
      simp at hm
    · simp only [hv0, if_false] at hm
      simp only [Option.some.injEq, Prod.mk.injEq] at hm
      obtain ⟨hm1, hm2⟩ := hm
      subst hm1; subst hm2
      exact ⟨a, ha, hv, hv0, rfl⟩

/- ===================== Identity round trip (C3): extraction facts ===================== -/

/-- Characterization of an extracted entry relative to the children of
its subtree root: some filtered-index path leads to a node (whose raw
location is raws), and the entry is either the trimmed non-blank text of
a text node at that path, or a present non-empty localizable attribute
of an element at that path. -/
def goodEntry (CS : List DomNode) (root : String) (kv : String × String) : Prop :=
  ∃ (j : Nat) (rest raws : List Nat) (node : DomNode),
    followFiltered CS j rest = some (raws, node) ∧
    ((∃ s, node = .text s ∧ kv.1 = pathString root (j :: rest) ∧
        kv.2 = jsTrim s ∧ jsTrim s ≠ "") ∨
      (∃ t a cs attrName, node = .element t a cs ∧
        kv.1 = pathString root (j :: rest) ++ "#" ++ attrName ∧
        attrName ∈ localizableAttrsFor t ∧ getAttr a attrName = some kv.2 ∧ kv.2 ≠ ""))

/-- Position of a parent in the walk: none is the subtree root itself,
some (j, rest) is the element reached by those filtered indices. -/
def extendPath : Option (Nat × List Nat) → Nat → Nat × List Nat
  | none, j => (j, [])
  | some (j0, rest), j => (j0, rest ++ [j])

def parentAt (CS : List DomNode) : Option (Nat × List Nat) → List DomNode → Prop
  | none, cs0 => cs0 = CS
  | some (j0, rest), cs0 =>
    ∃ raws t a, followFiltered CS j0 rest = some (raws, .element t a cs0)

def pathOfOpt (root : String) : Option (Nat × List Nat) → String
  | none => root
  | some (j0, rest) => pathString root (j0 :: rest)

theorem followFiltered_extend :
    ∀ (rest : List Nat) (CS cs0 : List DomNode) (j : Nat) (raws : List Nat)
      (t : String) (a : List (String × String)) (k r : Nat) (c : DomNode),
      followFiltered CS j rest = some (raws, .element t a cs0) →
      (filteredChildrenIdx cs0)[k]? = some (r, c) →
      followFiltered CS j (rest ++ [k]) = some (raws ++ [r], c) := by
  intro rest
  induction rest with
  | nil =>
    intro CS cs0 j raws t a k r c hf hg
    simp only [followFiltered, List.get?_eq_getElem?] at hf
    rcases hg0 : (filteredChildrenIdx CS)[j]? with _ | ⟨r0, m⟩
    · rw [hg0] at hf; simp at hf
    · rw [hg0] at hf
      simp only [Option.map_some', Option.some.injEq] at hf
      have h2 := hf.symm
      rw [Prod.mk.injEq] at h2
      obtain ⟨hr, hn⟩ := h2
      subst hr
      simp only [List.nil_append]
      simp [followFiltered, List.get?_eq_getElem?, hg0, ← hn, hg]
  | cons k0 rest' ih =>
    intro CS cs0 j raws t a k r c hf hg
    simp only [followFiltered, List.get?_eq_getElem?] at hf
    split at hf
    · rename_i r0 tag0 attrs0 cs1 heq
      rcases hf1 : followFiltered cs1 k0 rest' with _ | ⟨q1, q2⟩
      · rw [hf1] at hf; simp at hf
      · rw [hf1] at hf
        simp only [Option.map_some', Option.some.injEq] at hf
        have h2 := hf.symm
        rw [Prod.mk.injEq] at h2
        obtain ⟨hr, hn⟩ := h2
        subst hr
        have hrec := ih cs1 cs0 k0 q1 t a k r c (by rw [hf1, ← hn]) hg
        simp only [List.cons_append]
        simp [followFiltered, List.get?_eq_getElem?, heq, hrec]
    · rename_i hx heq
      simp at hf

theorem parentAt_extend (CS : List DomNode) (po : Option (Nat × List Nat))
    (cs0 : List DomNode) (k r : Nat) (c : DomNode)
    (hp : parentAt CS po cs0) (hg : (filteredChildrenIdx cs0)[k]? = some (r, c)) :
    ∃ raws, followFiltered CS (extendPath po k).1 (extendPath po k).2 = some (raws, c) := by
  cases po with
  | none =>
    simp only [parentAt] at hp
    subst hp
    refine ⟨[r], ?_⟩
    simp [extendPath, followFiltered, List.get?_eq_getElem?, hg]
  | some p =>
    obtain ⟨j0, rest⟩ := p
    obtain ⟨raws, t, a, hf⟩ := hp
    exact ⟨raws ++ [r], followFiltered_extend rest CS cs0 j0 raws t a k r c hf hg⟩

theorem pathString_extend (root : String) (po : Option (Nat × List Nat)) (k : Nat) :
    pathString root ((extendPath po k).1 :: (extendPath po k).2) =
      pathOfOpt root po ++ "/" ++ natToString k := by
  cases po with
  | none =>
    simp [extendPath, pathOfOpt, pathString, renderSteps, String.append_assoc,
      String.append_empty]
  | some p =>
    obtain ⟨j0, rest⟩ := p
    simp only [extendPath, pathOfOpt]
    have h := pathString_append_one root (j0 :: rest) k
    simpa using h

theorem processEntries_good :
    (∀ (anc : List String) (path : String) (n : DomNode),
      ∀ (CS : List DomNode) (root : String) (j : Nat) (rest raws : List Nat),
        followFiltered CS j rest = some (raws, n) →
        path = pathString root (j :: rest) →
        ∀ kv ∈ processNode anc path n, goodEntry CS root kv) ∧
    (∀ (anc : List String) (base : String) (idx : Nat) (ns : List DomNode),
      ∀ (CS : List DomNode) (root : String) (po : Option (Nat × List Nat))
        (cs0 pre : List DomNode),
        parentAt CS po cs0 → cs0 = pre ++ ns → idx = pre.countP isLocalizableNode →
        base = pathOfOpt root po →
        ∀ kv ∈ processChildren anc base idx ns, goodEntry CS root kv) :=
  processNode.mutual_induct
    (fun anc path n =>
      ∀ (CS : List DomNode) (root : String) (j : Nat) (rest raws : List Nat),
        followFiltered CS j rest = some (raws, n) →
        path = pathString root (j :: rest) →
        ∀ kv ∈ processNode anc path n, goodEntry CS root kv)
    (fun anc base idx ns =>
      ∀ (CS : List DomNode) (root : String) (po : Option (Nat × List Nat))
        (cs0 pre : List DomNode),
        parentAt CS po cs0 → cs0 = pre ++ ns → idx = pre.countP isLocalizableNode →
        base = pathOfOpt root po →
        ∀ kv ∈ processChildren anc base idx ns, goodEntry CS root kv)
    (fun anc path s hb => by
      intro CS root j rest raws hfol hpath kv hkv
      rw [processNode_blocked anc path _ hb] at hkv
      exact absurd hkv (List.not_mem_nil kv))
    (fun anc path s hb ht => by
      intro CS root j rest raws hfol hpath kv hkv
      simp only [processNode] at hkv
      rw [if_neg hb, if_pos ht] at hkv
      simp only [List.mem_singleton] at hkv
      subst hkv
      exact ⟨j, rest, raws, .text s, hfol,
        Or.inl ⟨s, rfl, hpath, rfl, bne_iff_ne.mp ht⟩⟩)
    (fun anc path s hb ht => by
      intro CS root j rest raws hfol hpath kv hkv
      simp only [processNode] at hkv
      rw [if_neg hb, if_neg ht] at hkv
      exact absurd hkv (List.not_mem_nil kv))
    (fun anc path c => by
      intro CS root j rest raws hfol hpath kv hkv
      exact absurd hkv (List.not_mem_nil kv))
    (fun anc path tag attrs children hb => by
      intro CS root j rest raws hfol hpath kv hkv
      rw [processNode_blocked anc path _ hb] at hkv
      exact absurd hkv (List.not_mem_nil kv))
    (fun anc path tag attrs children hb ih => by
      intro CS root j rest raws hfol hpath kv hkv
      simp only [processNode] at hkv
      rw [if_neg hb] at hkv
      rcases List.mem_append.mp hkv with h1 | h1
      · obtain ⟨a, ha, hget, hne, hkey⟩ := attrEntries_mem tag attrs path kv h1
        refine ⟨j, rest, raws, .element tag attrs children, hfol,
          Or.inr ⟨tag, attrs, children, a, rfl, ?_, ha, hget, hne⟩⟩
        rw [hkey, hpath]
      · exact ih CS root (some (j, rest)) children []
          ⟨raws, tag, attrs, hfol⟩ (by simp) (by simp)
          (by simp only [pathOfOpt]; exact hpath) kv h1)
    (fun anc base idx => by
      intro CS root po cs0 pre hpar hsplit hidx hbase kv hkv
      exact absurd hkv (List.not_mem_nil kv))
    (fun anc base idx n rest hn ihn ihrest => by
      intro CS root po cs0 pre hpar hsplit hidx hbase kv hkv
      simp only [processChildren] at hkv
      rw [if_pos hn] at hkv
      rcases List.mem_append.mp hkv with h1 | h1
      · have hg : (filteredChildrenIdx cs0)[idx]? = some (pre.length, n) := by
          rw [hsplit, hidx]
          have := filteredChildrenIdxFrom_get n hn pre rest 0
          simpa [filteredChildrenIdx] using this
        obtain ⟨raws', hfol⟩ := parentAt_extend CS po cs0 idx pre.length n hpar hg
        refine ihn CS root (extendPath po idx).1 (extendPath po idx).2 raws' hfol ?_ kv h1
        rw [pathString_extend, ← hbase]
      · refine ihrest CS root po cs0 (pre ++ [n]) hpar (by rw [hsplit]; simp) ?_ hbase kv h1
        rw [hidx, List.countP_append]
        simp [List.countP_cons, hn])
    (fun anc base idx n rest hn ihrest => by
      intro CS root po cs0 pre hpar hsplit hidx hbase kv hkv
      simp only [processChildren] at hkv
      rw [if_neg hn] at hkv
      refine ihrest CS root po cs0 (pre ++ [n]) hpar (by rw [hsplit]; simp) ?_ hbase kv hkv
      rw [hidx, List.countP_append]
      have hcz : isLocalizableNode n = false := by
        cases h : isLocalizableNode n
        · rfl
        · exact absurd h hn
      simp [List.countP_cons, hcz])

/-- Every entry of the extracted map of a document is a good entry of
its subtree. -/
theorem extractHtmlContent_entries_good (doc : HtmlDocument) :
    ∀ kv ∈ extractHtmlContent doc,
      goodEntry doc.headChildren "head" kv ∨ goodEntry doc.bodyChildren "body" kv := by
  intro kv hkv
  rcases List.mem_append.mp hkv with h | h
  · exact Or.inl (processEntries_good.2 ["head", "html"] "head" 0 doc.headChildren
      doc.headChildren "head" none doc.headChildren [] rfl rfl rfl rfl kv h)
  · exact Or.inr (processEntries_good.2 ["body", "html"] "body" 0 doc.bodyChildren
      doc.bodyChildren "body" none doc.bodyChildren [] rfl rfl rfl rfl kv h)

/- ===================== Identity round trip (C3): application ===================== -/

theorem resolveEntry_head (doc : HtmlDocument) (key : String) (j : Nat) (rest : List Nat)
    (ap : Option String) (raws : List Nat) (node : DomNode)
    (hparse : parseEntryKey key =
      { nodePath := pathString "head" (j :: rest), attrPart := ap,
        rootTag := "head", indices := (j :: rest).map some })
    (hfol : followFiltered doc.headChildren j rest = some (raws, node)) :
    resolveEntry doc key = some (raws, node) := by
  have hloop := resolveLoop_of_followFiltered rest doc.headChildren j raws node []
    (some ([], .element "head" doc.headAttrs doc.headChildren)) hfol
  simp only [resolveEntry, hparse]
  simpa using hloop

theorem resolveEntry_body (doc : HtmlDocument) (key : String) (j : Nat) (rest : List Nat)
    (ap : Option String) (raws : List Nat) (node : DomNode)
    (hparse : parseEntryKey key =
      { nodePath := pathString "body" (j :: rest), attrPart := ap,
        rootTag := "body", indices := (j :: rest).map some })
    (hfol : followFiltered doc.bodyChildren j rest = some (raws, node)) :
    resolveEntry doc key = some (raws, node) := by
  have hloop := resolveLoop_of_followFiltered rest doc.bodyChildren j raws node []
    (some ([], .element "body" doc.bodyAttrs doc.bodyChildren)) hfol
  simp only [resolveEntry, hparse]
  have hne : ¬(("body" : String) = "head") := by decide
  simp only [hne, if_false]
  simpa using hloop

theorem applyEntry_eq_of_modify (doc : HtmlDocument) (kv : String × String)
    (r0 : Nat) (rrest : List Nat) (node : DomNode)
    (hres : resolveEntry doc kv.1 = some (r0 :: rrest, node))
    (hmodH : (parseEntryKey kv.1).rootTag = "head" →
      modifyNodeAt (entryModify (parseEntryKey kv.1).attrPart kv.2) (r0 :: rrest)
        doc.headChildren = doc.headChildren)
    (hmodB : ¬(parseEntryKey kv.1).rootTag = "head" →
      modifyNodeAt (entryModify (parseEntryKey kv.1).attrPart kv.2) (r0 :: rrest)
        doc.bodyChildren = doc.bodyChildren) :
    applyEntry doc kv = doc := by
  simp only [applyEntry, hres]
  by_cases hh : (parseEntryKey kv.1).rootTag = "head"
  · rw [if_pos hh, hmodH hh]
  · rw [if_neg hh, hmodB hh]

theorem entryModify_none (v : String) : entryModify none v = setTextContentNode v := rfl

theorem entryModify_some (a v : String) (h : ¬(a = "")) :
    entryModify (some a) v = setAttrOnNode a v := by
  simp [entryModify, useAttrOf, h]

theorem applyEntry_goodEntry_id (doc : HtmlDocument) (kv : String × String)
    (htrimH : nodesTextsTrimmed doc.headChildren = true)
    (htrimB : nodesTextsTrimmed doc.bodyChildren = true)
    (hgood : goodEntry doc.headChildren "head" kv ∨ goodEntry doc.bodyChildren "body" kv) :
    applyEntry doc kv = doc := by
  rcases hgood with hg | hg
  · obtain ⟨j, rest, raws, node, hfol, hcase⟩ := hg
    obtain ⟨hget, hne⟩ := followFiltered_getNodeAtRaw rest doc.headChildren j raws node hfol
    cases raws with
    | nil => exact absurd rfl hne
    | cons r0 rrest =>
      rcases hcase with ⟨s, hnode, hkey, hval, hneS⟩ |
        ⟨t, a, cs, attrName, hnode, hkey, hattr, hgetA, hvne⟩
      · subst hnode
        have hparse : parseEntryKey kv.1 =
            { nodePath := pathString "head" (j :: rest), attrPart := none,
              rootTag := "head", indices := (j :: rest).map some } := by
          rw [hkey]; exact parseEntryKey_text "head" (j :: rest) (by decide) (by decide)
        have hres := resolveEntry_head doc kv.1 j rest none (r0 :: rrest) (.text s)
          hparse hfol
        refine applyEntry_eq_of_modify doc kv r0 rrest (.text s) hres ?_ ?_
        · intro _
          rw [hparse]
          have htr := getNodeAtRaw_trimmed (r0 :: rrest) doc.headChildren (.text s)
            htrimH hget
          have hts : jsTrim s = s := by
            simp only [nodeTextsTrimmed, Bool.or_eq_true, beq_iff_eq] at htr
            rcases htr with h | h
            · exact h
            · exact absurd h hneS
          refine modifyNodeAt_id _ (r0 :: rrest) doc.headChildren (.text s) hget ?_
          show entryModify none kv.2 (.text s) = .text s
          rw [entryModify_none]
          simp [setTextContentNode, hval, hts]
        · intro hcontra
          exact absurd (by rw [hparse]) hcontra
      · subst hnode
        have hhash : '#' ∉ attrName.data := localizableAttr_no_hash t attrName hattr
        have hparse : parseEntryKey kv.1 =
            { nodePath := pathString "head" (j :: rest), attrPart := some attrName,
              rootTag := "head", indices := (j :: rest).map some } := by
          rw [hkey]
          exact parseEntryKey_attr "head" (j :: rest) attrName (by decide) (by decide) hhash
        have hres := resolveEntry_head doc kv.1 j rest (some attrName) (r0 :: rrest)
          (.element t a cs) hparse hfol
        refine applyEntry_eq_of_modify doc kv r0 rrest (.element t a cs) hres ?_ ?_
        · intro _
          rw [hparse]
          refine modifyNodeAt_id _ (r0 :: rrest) doc.headChildren (.element t a cs) hget ?_
          show entryModify (some attrName) kv.2 (.element t a cs) = .element t a cs
          rw [entryModify_some attrName kv.2 (localizableAttr_ne_empty t attrName hattr)]
          simp [setAttrOnNode, setAttrList_getAttr_id a attrName kv.2 hgetA]
        · intro hcontra
          exact absurd (by rw [hparse]) hcontra
  · obtain ⟨j, rest, raws, node, hfol, hcase⟩ := hg
    obtain ⟨hget, hne⟩ := followFiltered_getNodeAtRaw rest doc.bodyChildren j raws node hfol
    cases raws with
    | nil => exact absurd rfl hne
    | cons r0 rrest =>
      rcases hcase with ⟨s, hnode, hkey, hval, hneS⟩ |
        ⟨t, a, cs, attrName, hnode, hkey, hattr, hgetA, hvne⟩
      · subst hnode
        have hparse : parseEntryKey kv.1 =
            { nodePath := pathString "body" (j :: rest), attrPart := none,
              rootTag := "body", indices := (j :: rest).map some } := by
          rw [hkey]; exact parseEntryKey_text "body" (j :: rest) (by decide) (by decide)
        have hres := resolveEntry_body doc kv.1 j rest none (r0 :: rrest) (.text s)
          hparse hfol
        refine applyEntry_eq_of_modify doc kv r0 rrest (.text s) hres ?_ ?_
        · intro hh
          rw [hparse] at hh
          simp at hh
        · intro _
          rw [hparse]
          have htr := getNodeAtRaw_trimmed (r0 :: rrest) doc.bodyChildren (.text s)
            htrimB hget
          have hts : jsTrim s = s := by
            simp only [nodeTextsTrimmed, Bool.or_eq_true, beq_iff_eq] at htr
            rcases htr with h | h
            · exact h
            · exact absurd h hneS
          refine modifyNodeAt_id _ (r0 :: rrest) doc.bodyChildren (.text s) hget ?_
          show entryModify none kv.2 (.text s) = .text s
          rw [entryModify_none]
          simp [setTextContentNode, hval, hts]
      · subst hnode
        have hhash : '#' ∉ attrName.data := localizableAttr_no_hash t attrName hattr
        have hparse : parseEntryKey kv.1 =
            { nodePath := pathString "body" (j :: rest), attrPart := some attrName,
              rootTag := "body", indices := (j :: rest).map some } := by
          rw [hkey]
          exact parseEntryKey_attr "body" (j :: rest) attrName (by decide) (by decide) hhash
        have hres := resolveEntry_body doc kv.1 j rest (some attrName) (r0 :: rrest)
          (.element t a cs) hparse hfol
        refine applyEntry_eq_of_modify doc kv r0 rrest (.element t a cs) hres ?_ ?_
        · intro hh
          rw [hparse] at hh
          simp at hh
        · intro _
          rw [hparse]
          refine modifyNodeAt_id _ (r0 :: rrest) doc.bodyChildren (.element t a cs) hget ?_
          show entryModify (some attrName) kv.2 (.element t a cs) = .element t a cs
          rw [entryModify_some attrName kv.2 (localizableAttr_ne_empty t attrName hattr)]
          simp [setAttrOnNode, setAttrList_getAttr_id a attrName kv.2 hgetA]

theorem applyLocalizedContent_id (doc : HtmlDocument) :
    ∀ entries : List (String × String),
      (∀ kv ∈ entries, applyEntry doc kv = doc) →
      applyLocalizedContent doc entries = doc := by
  intro entries
  induction entries with
  | nil => intro _; rfl
  | cons kv rest ih =>
    intro h
    simp only [applyLocalizedContent, List.foldl_cons]
    rw [h kv (List.mem_cons_self kv rest)]
    exact ih fun kv2 h2 => h kv2 (List.mem_cons_of_mem _ h2)

/- ===================== Serialization ===================== -/

def serializeAttrs : List (String × String) → String
  | [] => ""
  | (k, v) :: rest => " " ++ k ++ "=\"" ++ v ++ "\"" ++ serializeAttrs rest

/- Plain serialization of the document model: tags, attributes and text
in document order. -/
mutual
/-- Serialize one node. -/
def serializeNode : DomNode → String
  | .element t a cs => "<" ++ t ++ serializeAttrs a ++ ">" ++ serializeNodes cs ++ "</" ++ t ++ ">"
  | .text s => s
  | .comment s => "<!--" ++ s ++ "-->"
/-- Serialize a list of nodes. -/
def serializeNodes : List DomNode → String
  | [] => ""
  | n :: rest => serializeNode n ++ serializeNodes rest
end

def serializeDocument (doc : HtmlDocument) : String :=
  "<html" ++ serializeAttrs doc.htmlAttrs ++ ">" ++
    "<head" ++ serializeAttrs doc.headAttrs ++ ">" ++
      serializeNodes doc.headChildren ++ "</head>" ++
    "<body" ++ serializeAttrs doc.bodyAttrs ++ ">" ++
      serializeNodes doc.bodyChildren ++ "</body>" ++
  "</html>"

/- ===================== C3 theorems ===================== -/

/-- C3 counterexample: identity localization of a body holding the text
node with content space hi space replaces it by its trimmed content, so
the resulting document is not the input document with its lang attribute
set: extraction stores trimmed text and re-application writes the
trimmed value back.  Both the document trees and their serializations
differ. -/
theorem localizeHtmlIdentity_trims_text :
    serializeDocument
        (localizeHtmlIdentity ⟨[], [], [], [], [.element "p" [] [.text " hi "]]⟩ "es") ≠
      serializeDocument
        (setHtmlLang ⟨[], [], [], [], [.element "p" [] [.text " hi "]]⟩ "es") ∧
    localizeHtmlIdentity ⟨[], [], [], [], [.element "p" [] [.text " hi "]]⟩ "es" ≠
      setHtmlLang ⟨[], [], [], [], [.element "p" [] [.text " hi "]]⟩ "es" := by
  constructor
  · decide
  · intro h
    have hb : ([DomNode.element "p" [] [.text "hi"]] : List DomNode) =
        [DomNode.element "p" [] [.text " hi "]] :=
      congrArg HtmlDocument.bodyChildren h
    simp only [List.cons.injEq, DomNode.element.injEq, DomNode.text.injEq, and_true,
      true_and] at hb
    exact absurd hb (by decide)

/-- C3 amended: on a document whose non-blank text nodes carry no
leading or trailing whitespace, localizeHtml with the identity
translation returns exactly the input document with the root lang
attribute set to the target locale, both as a document tree and as a
serialized string.  In general the round trip additionally replaces
every extracted text node by its trimmed content (see the
counterexample), so the trimmed-input hypothesis is what the claim needs
to hold. -/
theorem localizeHtmlIdentity_roundtrip (doc : HtmlDocument) (target : String)
    (htrimH : nodesTextsTrimmed doc.headChildren = true)
    (htrimB : nodesTextsTrimmed doc.bodyChildren = true) :
    localizeHtmlIdentity doc target = setHtmlLang doc target ∧
    serializeDocument (localizeHtmlIdentity doc target) =
      serializeDocument (setHtmlLang doc target) := by
  have hdoc : localizeHtmlIdentity doc target = setHtmlLang doc target := by
    unfold localizeHtmlIdentity
    apply applyLocalizedContent_id
    intro kv hkv
    exact applyEntry_goodEntry_id (setHtmlLang doc target) kv htrimH htrimB
      (extractHtmlContent_entries_good doc kv hkv)
  exact ⟨hdoc, congrArg serializeDocument hdoc⟩

/-- Witness for C3 amended at a concrete trimmed document. -/
theorem localizeHtmlIdentity_roundtrip_witness :
    localizeHtmlIdentity
        ⟨[], [], [.element "meta" [("content", "Site")] []], [],
          [.element "p" [] [.text "hello"], .comment "c", .text "world"]⟩ "fr" =
      setHtmlLang
        ⟨[], [], [.element "meta" [("content", "Site")] []], [],
          [.element "p" [] [.text "hello"], .comment "c", .text "world"]⟩ "fr" :=
  (localizeHtmlIdentity_roundtrip
    ⟨[], [], [.element "meta" [("content", "Site")] []], [],
      [.element "p" [] [.text "hello"], .comment "c", .text "world"]⟩ "fr"
    (by decide) (by decide)).1
